import Mathlib

/-!
# Verification of the pairing resolver of `scripts/generate_samplesheet.py`

This file gives a shallow embedding of the two functions of
`scripts/generate_samplesheet.py` that the specification's claims are about:

* `parse_fastq_pairs` (source lines 35–83): partitions a set of FASTQ path
  strings into named samples, pairing mate-1/mate-2 files by an ordered list
  of filename-suffix conventions;
* `write_samplesheet` (source lines 86–101): serializes the resulting mapping
  as CSV rows (modelled as the list of emitted lines), with an optional
  local-prefix → S3-prefix substring substitution.

Modelling conventions:

* A Python path string is a Lean `String`; `os.path.basename` keeps the part
  after the last `/` (POSIX semantics).
* The fixed regular expressions of the source are anchored with `re.match`
  at the start and `$` at the end, and each consists of a greedy `(.+)`
  capture followed by a finite alternation of literal endings. They are
  therefore modelled by the equivalent suffix test: the basename matches iff
  it ends in one of the finitely many literal suffixes listed for the rule,
  with a nonempty remainder, and the capture (the "stem") is the basename
  with that suffix removed.  No two alternative suffixes of any pattern can
  match the same basename simultaneously (none is a suffix of another), so
  trying the alternatives in any fixed order agrees with the greedy regex.
* Python's `set` iteration order is implementation-defined (the spec flags
  this as a source ambiguity, §9); the model fixes it as the order of the
  deduplicated input list.
* `defaultdict(dict)` with the two slot assignments `['R1']`/`['R2']` is an
  insertion-ordered association list of `Record`s with slot-wise update
  (assigning `R1` preserves an existing `R2` and vice versa).
-/

/-- A sample's record: the two optional mate slots of the Python inner dict
(`'R1'`/`'R2'` keys). -/
structure Record where
  r1 : Option String
  r2 : Option String
deriving Repr, DecidableEq

/-- The samples mapping: an insertion-ordered association list modelling the
Python `defaultdict(dict)` named `samples`. -/
abbrev Samples := List (String × Record)

/-- `os.path.basename`: the part of the path after the last `/`
(`posixpath.basename` keeps everything after the final slash). -/
def basename (p : String) : String :=
  ⟨p.data.foldl (fun acc c => if c = '/' then [] else acc ++ [c]) []⟩

/-- The recognized FASTQ extensions, source line 23; also exactly the
expansions of the regex fragment `\.f(ast)?q(\.gz)?$`. -/
def fastq_extensions : List String :=
  [".fastq.gz", ".fq.gz", ".fastq", ".fq"]

/-- The literal suffix alternatives of a mate pattern: the tag (`_R1`, `_2`,
`.R1`, …), optionally followed by `_001` (only for the first rule), followed
by a FASTQ extension. -/
def mateSufs (tag : String) (opt001 : Bool) : List String :=
  (if opt001 then fastq_extensions.map (fun e => tag ++ "_001" ++ e) else [])
    ++ fastq_extensions.map (fun e => tag ++ e)

/-- One convention rule: the suffix alternatives of its mate-1 pattern and of
its mate-2 pattern. -/
structure Rule where
  r1sufs : List String
  r2sufs : List String
deriving Repr, DecidableEq

/-- The four convention rules, source lines 43–48, in their fixed priority
order. -/
def paired_patterns : List Rule :=
  [⟨mateSufs "_R1" true, mateSufs "_R2" true⟩,
   ⟨mateSufs "_1" false, mateSufs "_2" false⟩,
   ⟨mateSufs ".R1" false, mateSufs ".R2" false⟩,
   ⟨mateSufs ".1" false, mateSufs ".2" false⟩]

/-- `re.match(pat, b)` for a pattern `(.+)suffix-alternation$`: return the
stem (`match.group(1)`) if `b` ends in one of the suffixes with a nonempty
remainder.  At most one alternative can match (none of the suffix lists used
contains two strings one of which is a suffix of the other), so the
left-to-right try agrees with the greedy regex. -/
def stemOf : List String → String → Option String
  | [], _ => none
  | suf :: rest, b =>
    if suf.data.isSuffixOf b.data ∧ suf.data.length < b.data.length then
      some ⟨b.data.take (b.data.length - suf.data.length)⟩
    else stemOf rest b

/-- `re.sub(r'\.f(ast)?q(\.gz)?$', '', b)`: strip a recognized FASTQ
extension from the end of `b`, if present (`$`-anchored, so at most one
substitution; no nonempty-remainder requirement). -/
def stripFastqExt : List String → String → String
  | [], b => b
  | e :: rest, b =>
    if e.data.isSuffixOf b.data then ⟨b.data.take (b.data.length - e.data.length)⟩
    else stripFastqExt rest b

/-- The single-end sample name of source line 80: basename with the FASTQ
extension stripped. -/
def fastq_ext_strip (b : String) : String :=
  stripFastqExt fastq_extensions b

/-- Store a record under a key: replace in place if the key is present
(Python dict update), else append (Python dict insertion order). -/
def setRecord : Samples → String → Record → Samples
  | [], k, r => [(k, r)]
  | (k', r') :: rest, k, r =>
    if k' = k then (k, r) :: rest else (k', r') :: setRecord rest k r

/-- `samples[k]` read as a `defaultdict(dict)`: the stored record, or the
empty record. -/
def getRec (ss : Samples) (k : String) : Record :=
  (ss.lookup k).getD ⟨none, none⟩

/-- The two assignments `samples[name]['R1'] = f1; samples[name]['R2'] = f2`
of source lines 68–69: both slots overwritten. -/
def setPair (ss : Samples) (k f1 f2 : String) : Samples :=
  setRecord ss k ⟨some f1, some f2⟩

/-- The assignment `samples[name]['R1'] = f` of source line 81: the `R1` slot
overwritten, an existing `R2` slot preserved. -/
def setR1 (ss : Samples) (k f : String) : Samples :=
  setRecord ss k ⟨some f, (getRec ss k).r2⟩

/-- State of one rule pass: the samples built so far, the `matched_files`
accumulator, and (ghost instrumentation, not present in the source) the list
of binding events `(stem, mate1, mate2)` in the order they fired. -/
structure PassState where
  samples : Samples
  matched : List String
  events : List (String × String × String)
deriving Repr

/-- The body of the `for file1 in remaining_files` loop, source lines 56–72:
if `file1` matches the rule's mate-1 pattern, search `remaining_files` (the
set as it stood at the start of the pass) for the first mate-2 counterpart
with the same stem, and on success bind both under the stem and add both to
`matched_files`. -/
def tryFile (rule : Rule) (remaining : List String) (st : PassState)
    (file1 : String) : PassState :=
  match stemOf rule.r1sufs (basename file1) with
  | none => st
  | some stem =>
    match remaining.find? (fun file2 => stemOf rule.r2sufs (basename file2) == some stem) with
    | none => st
    | some file2 =>
      { samples := setPair st.samples stem file1 file2
        matched := file2 :: file1 :: st.matched
        events := st.events ++ [(stem, file1, file2)] }

/-- One pass of the `for r1_pattern, r2_pattern in paired_patterns` loop,
source lines 53–74: run the per-file loop over the working set, then remove
the matched files (`remaining_files -= matched_files`). -/
def rulePass (rule : Rule) (samples : Samples) (remaining : List String) :
    Samples × List String :=
  let st := remaining.foldl (tryFile rule remaining) ⟨samples, [], []⟩
  (st.samples, remaining.filter (fun f => !(st.matched.contains f)))

/-- The binding events of one rule pass (ghost projection; independent of the
incoming samples mapping). -/
def passEvents (rule : Rule) (remaining : List String) :
    List (String × String × String) :=
  (remaining.foldl (tryFile rule remaining) ⟨[], [], []⟩).events

/-- The outer loop over the convention rules, source lines 53–74. -/
def applyRules : List Rule → Samples → List String → Samples × List String
  | [], samples, remaining => (samples, remaining)
  | rule :: rules, samples, remaining =>
    applyRules rules (rulePass rule samples remaining).1 (rulePass rule samples remaining).2

/-- The working set left after all four rule passes (the files the source
treats as single-end, lines 76–81). -/
def remainingAfterRules (fastq_files : List String) : List String :=
  (applyRules paired_patterns [] fastq_files.dedup).2

/-- The samples mapping as it stands after the four rule passes, before the
single-end fold of source lines 76–81. -/
def samplesAfterRules (fastq_files : List String) : Samples :=
  (applyRules paired_patterns [] fastq_files.dedup).1

/-- All binding events of a run, pass by pass (ghost projection). -/
def runBindEvents : List Rule → List String → List (String × String × String)
  | [], _ => []
  | rule :: rules, remaining =>
    passEvents rule remaining ++ runBindEvents rules (rulePass rule [] remaining).2

/-- `parse_fastq_pairs`, source lines 35–83: `remaining_files =
set(fastq_files)` (modelled as the deduplicated input list), the four rule
passes, then every remaining file bound single-end under its
extension-stripped basename. -/
def parse_fastq_pairs (fastq_files : List String) : Samples :=
  let res := applyRules paired_patterns [] fastq_files.dedup
  res.2.foldl (fun ss f => setR1 ss (fastq_ext_strip (basename f)) f) res.1

/-- All files sitting in `mate1`/`mate2` slots of the mapping. -/
def slotFiles (ss : Samples) : List String :=
  ss.flatMap fun e => e.2.r1.toList ++ e.2.r2.toList

/-- Python `str.replace(old, new)` for nonempty `old`: replace every
non-overlapping occurrence, scanning left to right.  Structural recursion on
a fuel argument (any fuel of at least the list's length gives the scan's
value); the scanned list loses at least one element per step. -/
def pyReplaceGo (old new : List Char) : Nat → List Char → List Char
  | _, [] => []
  | 0, s => s
  | fuel + 1, c :: rest =>
    if old.isPrefixOf (c :: rest) ∧ old ≠ [] then
      new ++ pyReplaceGo old new fuel (rest.drop (old.length - 1))
    else c :: pyReplaceGo old new fuel rest

/-- Python `str.replace`: for an empty `old`, `new` is inserted before every
character and at the end (`"ab".replace("", "X") == "XaXbX"`); otherwise scan
and replace every occurrence. -/
def pyReplace (s old new : String) : String :=
  if old.data = [] then ⟨new.data ++ s.data.flatMap (fun c => c :: new.data)⟩
  else ⟨pyReplaceGo old.data new.data s.data.length s.data⟩

/-- One CSV row, source lines 91–101: `reads.get('R1', '')`/`.get('R2', '')`,
the optional S3 substitution (`str.replace` on the whole path, applied to
`fastq_2` only when it is nonempty — Python truthiness of `r2`), and the
comma-joined line. -/
def formatRow (strandedness : String) (s3 : Option (String × String))
    (e : String × Record) : String :=
  let r1 := e.2.r1.getD ""
  let r2 := e.2.r2.getD ""
  let r1 := match s3 with
    | none => r1
    | some lp => pyReplace r1 lp.1 lp.2
  let r2 := match s3 with
    | none => r2
    | some lp => if r2 ≠ "" then pyReplace r2 lp.1 lp.2 else r2
  e.1 ++ "," ++ r1 ++ "," ++ r2 ++ "," ++ strandedness

/-- Lexicographic `≤` on character lists by code point, Python's string
comparison (a strict prefix compares smaller). -/
def strLeB : List Char → List Char → Bool
  | [], _ => true
  | _ :: _, [] => false
  | a :: as, b :: bs => if a < b then true else if a = b then strLeB as bs else false

/-- Insert an entry into a name-sorted list, before the first entry whose
name is not smaller. -/
def insertByName (x : String × Record) : Samples → Samples
  | [] => [x]
  | y :: ys => if strLeB x.1.data y.1.data then x :: y :: ys else y :: insertByName x ys

/-- `sorted(samples.items())`: Python sorts the `(name, dict)` tuples, which
compares the names first; dict keys are unique so the tie comparison (which
would raise on dicts) never happens.  Modelled as an insertion sort by
name. -/
def sortByName : Samples → Samples
  | [] => []
  | x :: xs => insertByName x (sortByName xs)

/-- `write_samplesheet`, source lines 86–101, modelled as the list of lines
written to the file: the fixed header, then one row per sample sorted by
sample name. -/
def write_samplesheet (samples : Samples) (strandedness : String)
    (s3 : Option (String × String)) : List String :=
  "sample,fastq_1,fastq_2,strandedness" ::
    (sortByName samples).map (formatRow strandedness s3)

/-- Two suffix-alternation patterns that share no comparable suffixes cannot
both match one basename. -/
def SufsExcl (A B : List String) : Prop :=
  ∀ u ∈ A, ∀ v ∈ B, u.data.isSuffixOf v.data = false ∧ v.data.isSuffixOf u.data = false
instance (A B : List String) : Decidable (SufsExcl A B) := by
  unfold SufsExcl
  infer_instance
/-- All suffixes a rule can claim a file through. -/
def ruleSufs (r : Rule) : List String := r.r1sufs ++ r.r2sufs
/-- Exclusion between two whole rules: no basename can match a pattern of
each. -/
def RulesExcl (rA rB : Rule) : Prop := SufsExcl (ruleSufs rA) (ruleSufs rB)
instance : DecidableRel RulesExcl := by
  intro rA rB
  unfold RulesExcl
  infer_instance
/-- The mapping holds a record under `s` whose `mate2` slot is populated. -/
def R2SomeAt (ss : Samples) (s : String) : Prop :=
  ∃ rec, ss.lookup s = some rec ∧ rec.r2.isSome
/-- Every stored record has its `mate1` slot populated. -/
def AllR1Some (ss : Samples) : Prop :=
  ∀ s rec, ss.lookup s = some rec → rec.r1.isSome
/-- Every populated `mate2` slot originates from a pair binding whose two
files lie in `files` and match one rule's two patterns with the record's
key as shared stem. -/
def R2Origin (files : List String) (ss : Samples) : Prop :=
  ∀ s rec, ss.lookup s = some rec → rec.r2.isSome →
    ∃ r ∈ paired_patterns, ∃ f1 ∈ files, ∃ f2 ∈ files,
      stemOf r.r1sufs (basename f1) = some s ∧
      stemOf r.r2sufs (basename f2) = some s
/-- A unified binding event: a pair binding `(stem, mate1, some mate2)` or a
single-end binding `(name, file, none)`. -/
abbrev Ev := String × String × Option String
/-- Apply one binding event to the mapping (ghost replay of the source's two
assignment forms). -/
def applyEv (ss : Samples) (e : Ev) : Samples :=
  match e.2.2 with
  | some f2 => setPair ss e.1 e.2.1 f2
  | none => setR1 ss e.1 e.2.1
/-- The files an event writes into slots. -/
def evFiles (e : Ev) : List String := e.2.1 :: e.2.2.toList
/-- All binding events of a run of `parse_fastq_pairs`, in order: the pair
bindings of the four passes, then the single-end bindings. -/
def runEvents (files : List String) : List Ev :=
  (runBindEvents paired_patterns files.dedup).map (fun e => (e.1, e.2.1, some e.2.2))
    ++ (remainingAfterRules files).map (fun f => (fastq_ext_strip (basename f), f, none))
/-- The sample names bound by the run's events, in binding order. -/
def eventNames (files : List String) : List String :=
  (runEvents files).map (fun e => e.1)
/-- The keys of the mapping, in insertion order. -/
def keysOf (ss : Samples) : List String := ss.map (fun e => e.1)

/-! ## Pattern-level lemmas -/

theorem stemOf_ne_none_iff {sufs : List String} {b : String} :
    stemOf sufs b ≠ none ↔
      ∃ u ∈ sufs, u.data <:+ b.data ∧ u.data.length < b.data.length := by
  induction sufs with
  | nil => simp [stemOf]
  | cons suf rest ih =>
    simp only [stemOf]
    by_cases h : suf.data.isSuffixOf b.data ∧ suf.data.length < b.data.length
    · simp only [if_pos h]
      constructor
      · intro _
        exact ⟨suf, List.mem_cons_self .., List.isSuffixOf_iff_suffix.mp h.1, h.2⟩
      · intro _
        simp
    · simp only [if_neg h, ih]
      constructor
      · rintro ⟨u, hu, hsuf, hlen⟩
        exact ⟨u, List.mem_cons_of_mem _ hu, hsuf, hlen⟩
      · rintro ⟨u, hu, hsuf, hlen⟩
        rcases List.mem_cons.mp hu with rfl | hu
        · exact absurd ⟨List.isSuffixOf_iff_suffix.mpr hsuf, hlen⟩ h
        · exact ⟨u, hu, hsuf, hlen⟩

theorem stemOf_excl {A B : List String} (h : SufsExcl A B) {b : String}
    (hA : stemOf A b ≠ none) : stemOf B b = none := by
  by_contra hB
  rcases stemOf_ne_none_iff.mp hA with ⟨u, hu, hus, _⟩
  rcases stemOf_ne_none_iff.mp hB with ⟨v, hv, hvs, _⟩
  rcases List.suffix_or_suffix_of_suffix hus hvs with huv | hvu
  · have hfalse := (h u hu v hv).1
    have htrue : u.data.isSuffixOf v.data = true := List.isSuffixOf_iff_suffix.mpr huv
    rw [htrue] at hfalse
    simp at hfalse
  · have hfalse := (h u hu v hv).2
    have htrue : v.data.isSuffixOf u.data = true := List.isSuffixOf_iff_suffix.mpr hvu
    rw [htrue] at hfalse
    simp at hfalse

theorem pairwise_rules_excl : List.Pairwise RulesExcl paired_patterns := by decide

theorem mate_excl : ∀ r ∈ paired_patterns, SufsExcl r.r1sufs r.r2sufs := by decide

/-! ## Association-list lemmas -/

theorem lookup_setRecord_self (ss : Samples) (k : String) (r : Record) :
    (setRecord ss k r).lookup k = some r := by
  induction ss with
  | nil => simp [setRecord, List.lookup]
  | cons e rest ih =>
    obtain ⟨k', r'⟩ := e
    by_cases h : k' = k
    · simp [setRecord, h, List.lookup]
    · simp only [setRecord, if_neg h, List.lookup]
      have : (k == k') = false := by simpa [beq_iff_eq] using Ne.symm h
      simp [this, ih]

theorem lookup_setRecord_ne (ss : Samples) (k q : String) (r : Record)
    (h : q ≠ k) : (setRecord ss k r).lookup q = ss.lookup q := by
  induction ss with
  | nil =>
    simp only [setRecord, List.lookup, List.lookup_nil]
    have : (q == k) = false := by simpa [beq_iff_eq] using h
    simp [this]
  | cons e rest ih =>
    obtain ⟨k', r'⟩ := e
    by_cases hk : k' = k
    · subst hk
      have : (q == k') = false := by simpa [beq_iff_eq] using h
      simp [setRecord, List.lookup, this]
    · simp only [setRecord, if_neg hk, List.lookup]
      cases hq : (q == k') <;> simp [ih]

theorem lookup_setPair (ss : Samples) (s f1 f2 : String) (q : String) :
    (setPair ss s f1 f2).lookup q =
      if q = s then some ⟨some f1, some f2⟩ else ss.lookup q := by
  by_cases h : q = s
  · subst h
    simp [setPair, lookup_setRecord_self]
  · simp [setPair, lookup_setRecord_ne ss s q _ h, h]

theorem lookup_setR1 (ss : Samples) (s f : String) (q : String) :
    (setR1 ss s f).lookup q =
      if q = s then some ⟨some f, (getRec ss s).r2⟩ else ss.lookup q := by
  by_cases h : q = s
  · subst h
    simp [setR1, lookup_setRecord_self]
  · simp [setR1, lookup_setRecord_ne ss s q _ h, h]

/-! ## Slot-state predicates and their preservation -/

theorem R2SomeAt_setPair {ss : Samples} {s : String} (q f1 f2 : String)
    (h : R2SomeAt ss s) : R2SomeAt (setPair ss q f1 f2) s := by
  rcases h with ⟨rec, hl, hr⟩
  by_cases hq : s = q
  · exact ⟨⟨some f1, some f2⟩, by simp [lookup_setPair, hq], rfl⟩
  · exact ⟨rec, by simp [lookup_setPair, hq, hl], hr⟩

theorem R2SomeAt_setR1 {ss : Samples} {s : String} (q f : String)
    (h : R2SomeAt ss s) : R2SomeAt (setR1 ss q f) s := by
  rcases h with ⟨rec, hl, hr⟩
  by_cases hq : s = q
  · subst hq
    refine ⟨⟨some f, (getRec ss s).r2⟩, by simp [lookup_setR1], ?_⟩
    simpa [getRec, hl] using hr
  · exact ⟨rec, by simp [lookup_setR1, hq, hl], hr⟩

theorem R2SomeAt_tryFile {rule : Rule} {remaining : List String}
    {st : PassState} {s : String} (f : String)
    (h : R2SomeAt st.samples s) : R2SomeAt (tryFile rule remaining st f).samples s := by
  unfold tryFile
  split
  · exact h
  · split
    · exact h
    · exact R2SomeAt_setPair _ _ _ h

theorem R2SomeAt_foldl_tryFile {rule : Rule} {remaining : List String}
    {s : String} (l : List String) (st : PassState)
    (h : R2SomeAt st.samples s) :
    R2SomeAt (l.foldl (tryFile rule remaining) st).samples s := by
  induction l generalizing st with
  | nil => exact h
  | cons f rest ih => exact ih _ (R2SomeAt_tryFile f h)

theorem R2SomeAt_rulePass {rule : Rule} {samples : Samples}
    {remaining : List String} {s : String} (h : R2SomeAt samples s) :
    R2SomeAt (rulePass rule samples remaining).1 s :=
  R2SomeAt_foldl_tryFile remaining ⟨samples, [], []⟩ h

theorem R2SomeAt_applyRules {rules : List Rule} {samples : Samples}
    {remaining : List String} {s : String} (h : R2SomeAt samples s) :
    R2SomeAt (applyRules rules samples remaining).1 s := by
  induction rules generalizing samples remaining with
  | nil => exact h
  | cons rule rest ih => exact ih (R2SomeAt_rulePass h)

theorem R2SomeAt_singles {s : String} (l : List String) (ss : Samples)
    (h : R2SomeAt ss s) :
    R2SomeAt (l.foldl (fun ss f => setR1 ss (fastq_ext_strip (basename f)) f) ss) s := by
  induction l generalizing ss with
  | nil => exact h
  | cons f rest ih => exact ih _ (R2SomeAt_setR1 _ f h)

/-! ## Firing and survival of matches -/

theorem stemOf_eq_none_iff {sufs : List String} {b : String} :
    stemOf sufs b = none ↔
      ∀ u ∈ sufs, ¬(u.data <:+ b.data ∧ u.data.length < b.data.length) := by
  constructor
  · intro h u hu hc
    exact (stemOf_ne_none_iff.mpr ⟨u, hu, hc.1, hc.2⟩) h
  · intro h
    by_contra hn
    rcases stemOf_ne_none_iff.mp hn with ⟨u, hu, h1, h2⟩
    exact h u hu ⟨h1, h2⟩

theorem stemOf_none_of_subset {A B : List String} {b : String}
    (hsub : A ⊆ B) (h : stemOf B b = none) : stemOf A b = none :=
  stemOf_eq_none_iff.mpr fun u hu => stemOf_eq_none_iff.mp h u (hsub hu)

theorem SufsExcl.symm {A B : List String} (h : SufsExcl A B) : SufsExcl B A :=
  fun v hv u hu => ⟨(h u hu v hv).2, (h u hu v hv).1⟩

theorem tryFile_fires {rule : Rule} {remaining : List String} {st : PassState}
    {f1 s : String} (h1 : stemOf rule.r1sufs (basename f1) = some s)
    (h2 : ∃ f2 ∈ remaining, stemOf rule.r2sufs (basename f2) = some s) :
    R2SomeAt (tryFile rule remaining st f1).samples s := by
  obtain ⟨f2, hf2mem, hf2⟩ := h2
  have hfind : (remaining.find?
      (fun file2 => stemOf rule.r2sufs (basename file2) == some s)).isSome := by
    rw [List.find?_isSome]
    exact ⟨f2, hf2mem, by simp [hf2]⟩
  rcases hf : remaining.find?
      (fun file2 => stemOf rule.r2sufs (basename file2) == some s) with _ | f2'
  · rw [hf] at hfind
    simp at hfind
  · simp only [tryFile, h1, hf]
    exact ⟨⟨some f1, some f2'⟩, by simp [lookup_setPair], rfl⟩

theorem foldl_fires {rule : Rule} {remaining : List String} {st : PassState}
    {f1 s : String} (l₁ l₂ : List String)
    (h1 : stemOf rule.r1sufs (basename f1) = some s)
    (h2 : ∃ f2 ∈ remaining, stemOf rule.r2sufs (basename f2) = some s) :
    R2SomeAt ((l₁ ++ f1 :: l₂).foldl (tryFile rule remaining) st).samples s := by
  rw [List.foldl_append, List.foldl_cons]
  exact R2SomeAt_foldl_tryFile l₂ _ (tryFile_fires h1 h2)

theorem rulePass_fires {rule : Rule} {samples : Samples}
    {remaining : List String} {f1 s : String} (hmem : f1 ∈ remaining)
    (h1 : stemOf rule.r1sufs (basename f1) = some s)
    (h2 : ∃ f2 ∈ remaining, stemOf rule.r2sufs (basename f2) = some s) :
    R2SomeAt (rulePass rule samples remaining).1 s := by
  obtain ⟨l₁, l₂, hsplit⟩ := List.append_of_mem hmem
  show R2SomeAt (remaining.foldl (tryFile rule remaining) ⟨samples, [], []⟩).samples s
  nth_rewrite 2 [hsplit]
  exact foldl_fires l₁ l₂ h1 h2

theorem matched_of_foldl {rule : Rule} {remaining : List String}
    (l : List String) (st : PassState) {f : String}
    (hf : f ∈ (l.foldl (tryFile rule remaining) st).matched) :
    f ∈ st.matched ∨ stemOf rule.r1sufs (basename f) ≠ none ∨
      stemOf rule.r2sufs (basename f) ≠ none := by
  induction l generalizing st with
  | nil => exact Or.inl hf
  | cons g rest ih =>
    rw [List.foldl_cons] at hf
    rcases ih _ hf with hin | h | h
    · rcases hstem : stemOf rule.r1sufs (basename g) with _ | stem
      · simp only [tryFile, hstem] at hin
        exact Or.inl hin
      · rcases hfind : remaining.find?
            (fun file2 => stemOf rule.r2sufs (basename file2) == some stem) with _ | file2
        · simp only [tryFile, hstem, hfind] at hin
          exact Or.inl hin
        · simp only [tryFile, hstem, hfind] at hin
          rcases List.mem_cons.mp hin with rfl | hin'
          · have hp := List.find?_some hfind
            refine Or.inr (Or.inr ?_)
            rw [show stemOf rule.r2sufs (basename f) = some stem from by
              simpa [beq_iff_eq] using hp]
            simp
          · rcases List.mem_cons.mp hin' with rfl | hin''
            · refine Or.inr (Or.inl ?_)
              rw [hstem]
              simp
            · exact Or.inl hin''
    · exact Or.inr (Or.inl h)
    · exact Or.inr (Or.inr h)

theorem mem_rulePass_remaining {rule : Rule} {samples : Samples}
    {remaining : List String} {f : String} (hmem : f ∈ remaining)
    (h1 : stemOf rule.r1sufs (basename f) = none)
    (h2 : stemOf rule.r2sufs (basename f) = none) :
    f ∈ (rulePass rule samples remaining).2 := by
  show f ∈ remaining.filter _
  rw [List.mem_filter]
  refine ⟨hmem, ?_⟩
  rw [Bool.not_eq_true']
  rw [← Bool.not_eq_true]
  intro hcon
  have hfm : f ∈ (remaining.foldl (tryFile rule remaining) ⟨samples, [], []⟩).matched :=
    List.elem_iff.mp hcon
  rcases matched_of_foldl remaining _ hfm with hin | h | h
  · simp at hin
  · exact h h1
  · exact h h2

theorem rulePass_remaining_subset (rule : Rule) (samples : Samples)
    (remaining : List String) : (rulePass rule samples remaining).2 ⊆ remaining :=
  fun _ hx => (List.mem_filter.mp hx).1

/-- A file matching only a later rule's patterns survives the earlier passes
and then fires: `mate2` becomes populated under the shared stem. -/
theorem applyRules_fires {rules : List Rule} {samples : Samples}
    {remaining : List String} {r : Rule} {f1 f2 s : String}
    (hr : r ∈ rules) (hexcl : List.Pairwise RulesExcl rules)
    (hf1 : f1 ∈ remaining) (hf2 : f2 ∈ remaining)
    (h1 : stemOf r.r1sufs (basename f1) = some s)
    (h2 : stemOf r.r2sufs (basename f2) = some s) :
    R2SomeAt (applyRules rules samples remaining).1 s := by
  induction rules generalizing samples remaining with
  | nil => cases hr
  | cons r0 rest ih =>
    simp only [applyRules]
    rcases List.mem_cons.mp hr with rfl | hr'
    · exact R2SomeAt_applyRules (rulePass_fires hf1 h1 ⟨f2, hf2, h2⟩)
    · have hx : RulesExcl r0 r := (List.pairwise_cons.mp hexcl).1 r hr'
      have hsub1 : r.r1sufs ⊆ ruleSufs r := fun u hu => List.mem_append_left _ hu
      have hsub2 : r.r2sufs ⊆ ruleSufs r := fun u hu => List.mem_append_right _ hu
      have hall1 : stemOf (ruleSufs r) (basename f1) ≠ none := by
        intro hn
        rw [stemOf_none_of_subset hsub1 hn] at h1
        cases h1
      have hall2 : stemOf (ruleSufs r) (basename f2) ≠ none := by
        intro hn
        rw [stemOf_none_of_subset hsub2 hn] at h2
        cases h2
      have hz1 : stemOf (ruleSufs r0) (basename f1) = none := stemOf_excl hx.symm hall1
      have hz2 : stemOf (ruleSufs r0) (basename f2) = none := stemOf_excl hx.symm hall2
      have hsub01 : r0.r1sufs ⊆ ruleSufs r0 := fun u hu => List.mem_append_left _ hu
      have hsub02 : r0.r2sufs ⊆ ruleSufs r0 := fun u hu => List.mem_append_right _ hu
      exact ih hr' (List.pairwise_cons.mp hexcl).2
        (mem_rulePass_remaining hf1 (stemOf_none_of_subset hsub01 hz1)
          (stemOf_none_of_subset hsub02 hz1))
        (mem_rulePass_remaining hf2 (stemOf_none_of_subset hsub01 hz2)
          (stemOf_none_of_subset hsub02 hz2))

/-! ## Invariants: mate1 always populated, mate2 only from a pair binding -/

theorem AllR1Some_setPair {ss : Samples} (h : AllR1Some ss) (q f1 f2 : String) :
    AllR1Some (setPair ss q f1 f2) := by
  intro s rec hl
  rw [lookup_setPair] at hl
  split_ifs at hl with hq
  · cases hl
    rfl
  · exact h s rec hl

theorem AllR1Some_setR1 {ss : Samples} (h : AllR1Some ss) (q f : String) :
    AllR1Some (setR1 ss q f) := by
  intro s rec hl
  rw [lookup_setR1] at hl
  split_ifs at hl with hq
  · cases hl
    rfl
  · exact h s rec hl

theorem AllR1Some_tryFile {rule : Rule} {remaining : List String}
    {st : PassState} (f : String) (h : AllR1Some st.samples) :
    AllR1Some (tryFile rule remaining st f).samples := by
  unfold tryFile
  split
  · exact h
  · split
    · exact h
    · exact AllR1Some_setPair h _ _ _

theorem AllR1Some_parse (files : List String) :
    AllR1Some (parse_fastq_pairs files) := by
  have hfold : ∀ (rule : Rule) (remaining l : List String) (st : PassState),
      AllR1Some st.samples →
      AllR1Some ((l.foldl (tryFile rule remaining) st)).samples := by
    intro rule remaining l
    induction l with
    | nil => intro st h; exact h
    | cons g rest ih =>
      intro st h
      exact ih _ (AllR1Some_tryFile g h)
  have happly : ∀ (rules : List Rule) (samples : Samples) (remaining : List String),
      AllR1Some samples → AllR1Some (applyRules rules samples remaining).1 := by
    intro rules
    induction rules with
    | nil => intro samples remaining h; exact h
    | cons r0 rest ih =>
      intro samples remaining h
      simp only [applyRules]
      exact ih _ _ (hfold r0 remaining remaining ⟨samples, [], []⟩ h)
  have hsingles : ∀ (l : List String) (ss : Samples), AllR1Some ss →
      AllR1Some (l.foldl (fun ss f => setR1 ss (fastq_ext_strip (basename f)) f) ss) := by
    intro l
    induction l with
    | nil => intro ss h; exact h
    | cons g rest ih =>
      intro ss h
      exact ih _ (AllR1Some_setR1 h _ _)
  exact hsingles _ _ (happly paired_patterns [] files.dedup (fun s rec hl => by simp at hl))

theorem R2Origin_setPair {files : List String} {ss : Samples} {r : Rule}
    {f1 f2 s : String} (h : R2Origin files ss) (hr : r ∈ paired_patterns)
    (hf1 : f1 ∈ files) (hf2 : f2 ∈ files)
    (h1 : stemOf r.r1sufs (basename f1) = some s)
    (h2 : stemOf r.r2sufs (basename f2) = some s) :
    R2Origin files (setPair ss s f1 f2) := by
  intro q rec hl hr2
  rw [lookup_setPair] at hl
  split_ifs at hl with hq
  · cases hl
    subst hq
    exact ⟨r, hr, f1, hf1, f2, hf2, h1, h2⟩
  · exact h q rec hl hr2

theorem R2Origin_setR1 {files : List String} {ss : Samples}
    (h : R2Origin files ss) (q f : String) : R2Origin files (setR1 ss q f) := by
  intro s rec hl hr2
  rw [lookup_setR1] at hl
  split_ifs at hl with hq
  · cases hl
    subst hq
    rcases hlo : ss.lookup s with _ | rec0
    · exfalso
      simp [getRec, hlo] at hr2
    · exact h s rec0 hlo (by simpa [getRec, hlo] using hr2)
  · exact h s rec hl hr2

theorem R2Origin_tryFile {files : List String} {rule : Rule}
    {remaining : List String} {st : PassState} {f : String}
    (hrule : rule ∈ paired_patterns) (hsub : remaining ⊆ files)
    (hmem : f ∈ remaining) (h : R2Origin files st.samples) :
    R2Origin files (tryFile rule remaining st f).samples := by
  rcases hstem : stemOf rule.r1sufs (basename f) with _ | stem
  · simp only [tryFile, hstem]
    exact h
  · rcases hfind : remaining.find?
        (fun file2 => stemOf rule.r2sufs (basename file2) == some stem) with _ | file2
    · simp only [tryFile, hstem, hfind]
      exact h
    · simp only [tryFile, hstem, hfind]
      have hf2stem : stemOf rule.r2sufs (basename file2) = some stem := by
        simpa [beq_iff_eq] using List.find?_some hfind
      exact R2Origin_setPair h hrule (hsub hmem)
        (hsub (List.mem_of_find?_eq_some hfind)) hstem hf2stem

theorem R2Origin_parse (files : List String) :
    R2Origin files.dedup (parse_fastq_pairs files) := by
  have hfold : ∀ (rule : Rule) (remaining : List String),
      rule ∈ paired_patterns → remaining ⊆ files.dedup →
      ∀ (l : List String), l ⊆ remaining → ∀ st, R2Origin files.dedup st.samples →
      R2Origin files.dedup ((l.foldl (tryFile rule remaining) st)).samples := by
    intro rule remaining hrule hsub l
    induction l with
    | nil => intro _ st h; exact h
    | cons g rest ih =>
      intro hl st h
      exact ih (fun x hx => hl (List.mem_cons_of_mem _ hx)) _
        (R2Origin_tryFile hrule hsub (hl (List.mem_cons_self ..)) h)
  have happly : ∀ (rules : List Rule), (∀ r ∈ rules, r ∈ paired_patterns) →
      ∀ (samples : Samples) (remaining : List String), remaining ⊆ files.dedup →
      R2Origin files.dedup samples →
      R2Origin files.dedup (applyRules rules samples remaining).1 := by
    intro rules
    induction rules with
    | nil => intro _ samples remaining _ h; exact h
    | cons r0 rest ih =>
      intro hin samples remaining hsub h
      simp only [applyRules]
      refine ih (fun r hr => hin r (List.mem_cons_of_mem _ hr)) _ _
        (fun x hx => hsub (rulePass_remaining_subset r0 samples remaining hx)) ?_
      exact hfold r0 remaining (hin r0 (List.mem_cons_self ..)) hsub remaining
        (fun x hx => hx) ⟨samples, [], []⟩ h
  have hsingles : ∀ (l : List String) (ss : Samples), R2Origin files.dedup ss →
      R2Origin files.dedup
        (l.foldl (fun ss f => setR1 ss (fastq_ext_strip (basename f)) f) ss) := by
    intro l
    induction l with
    | nil => intro ss h; exact h
    | cons g rest ih =>
      intro ss h
      exact ih _ (R2Origin_setR1 h _ _)
  exact hsingles _ _ (happly paired_patterns (fun r hr => hr) [] files.dedup
    (fun x hx => hx) (fun s rec hl => by simp at hl))

theorem parse_def (files : List String) :
    parse_fastq_pairs files =
      (applyRules paired_patterns [] files.dedup).2.foldl
        (fun ss f => setR1 ss (fastq_ext_strip (basename f)) f)
        (applyRules paired_patterns [] files.dedup).1 := rfl

/-- C3: every SampleRecord in the mapping returned by `parse_fastq_pairs` has
its `mate1` slot populated, and its `mate2` slot is present iff both
conventionally-paired files were present in the input and share an identical
stem (the record's key) under the same rule. -/
theorem C3_mate_slots (files : List String) (s : String) (rec : Record)
    (hl : (parse_fastq_pairs files).lookup s = some rec) :
    rec.r1.isSome ∧
      (rec.r2.isSome ↔ ∃ r ∈ paired_patterns, ∃ f1 ∈ files, ∃ f2 ∈ files,
        stemOf r.r1sufs (basename f1) = some s ∧
        stemOf r.r2sufs (basename f2) = some s) := by
  refine ⟨AllR1Some_parse files s rec hl, ⟨?_, ?_⟩⟩
  · intro hr2
    rcases R2Origin_parse files s rec hl hr2 with ⟨r, hr, f1, hf1, f2, hf2, h1, h2⟩
    exact ⟨r, hr, f1, List.mem_dedup.mp hf1, f2, List.mem_dedup.mp hf2, h1, h2⟩
  · rintro ⟨r, hr, f1, hf1, f2, hf2, h1, h2⟩
    have hfire : R2SomeAt (applyRules paired_patterns [] files.dedup).1 s :=
      applyRules_fires hr pairwise_rules_excl (List.mem_dedup.mpr hf1)
        (List.mem_dedup.mpr hf2) h1 h2
    have hfinal : R2SomeAt (parse_fastq_pairs files) s := by
      rw [parse_def]
      exact R2SomeAt_singles _ _ hfire
    rcases hfinal with ⟨rec', hl', hr2'⟩
    rw [hl] at hl'
    cases hl'
    exact hr2'

/-- Witness for C3 at the paired input of the spec's sample scenario 1 shape. -/
theorem C3_witness :
    (Record.mk (some "A_R1.fastq.gz") (some "A_R2.fastq.gz")).r1.isSome ∧
      ((Record.mk (some "A_R1.fastq.gz") (some "A_R2.fastq.gz")).r2.isSome ↔
        ∃ r ∈ paired_patterns, ∃ f1 ∈ ["A_R1.fastq.gz", "A_R2.fastq.gz"],
          ∃ f2 ∈ ["A_R1.fastq.gz", "A_R2.fastq.gz"],
          stemOf r.r1sufs (basename f1) = some "A" ∧
          stemOf r.r2sufs (basename f2) = some "A") :=
  C3_mate_slots ["A_R1.fastq.gz", "A_R2.fastq.gz"] "A"
    ⟨some "A_R1.fastq.gz", some "A_R2.fastq.gz"⟩ (by decide)

/-! ## Survival through all passes and the single-end fold -/

theorem mem_applyRules_remaining {rules : List Rule} {samples : Samples}
    {remaining : List String} {f : String} (hmem : f ∈ remaining)
    (h : ∀ r ∈ rules, stemOf r.r1sufs (basename f) = none ∧
      stemOf r.r2sufs (basename f) = none) :
    f ∈ (applyRules rules samples remaining).2 := by
  induction rules generalizing samples remaining with
  | nil => exact hmem
  | cons r0 rest ih =>
    simp only [applyRules]
    exact ih
      (mem_rulePass_remaining hmem (h r0 (List.mem_cons_self ..)).1
        (h r0 (List.mem_cons_self ..)).2)
      (fun r hr => h r (List.mem_cons_of_mem _ hr))

theorem singles_fold_key (L : List String) (k : String) :
    ∀ (l : List String), l ⊆ L → ∀ (ss : Samples),
    (∃ rec, ss.lookup k = some rec ∧
      ∃ g ∈ L, fastq_ext_strip (basename g) = k ∧ rec.r1 = some g) →
    ∃ rec, ((l.foldl (fun ss f => setR1 ss (fastq_ext_strip (basename f)) f) ss)).lookup k
        = some rec ∧
      ∃ g ∈ L, fastq_ext_strip (basename g) = k ∧ rec.r1 = some g := by
  intro l
  induction l with
  | nil => intro _ ss h; exact h
  | cons a rest ih =>
    intro hsub ss h
    rw [List.foldl_cons]
    apply ih (fun x hx => hsub (List.mem_cons_of_mem _ hx))
    by_cases hk : k = fastq_ext_strip (basename a)
    · refine ⟨⟨some a, (getRec ss (fastq_ext_strip (basename a))).r2⟩, ?_,
        a, hsub (List.mem_cons_self ..), hk.symm, rfl⟩
      rw [lookup_setR1]
      simp [hk]
    · rcases h with ⟨rec, hl, hg⟩
      refine ⟨rec, ?_, hg⟩
      rw [lookup_setR1, if_neg hk]
      exact hl

/-- Every file reaching the single-end fold ends with a record under its
stripped basename whose `mate1` is one of the fold's files with the same
stripped basename. -/
theorem singles_binds {l : List String} {f : String} (hf : f ∈ l) (ss : Samples) :
    ∃ rec, ((l.foldl (fun ss f => setR1 ss (fastq_ext_strip (basename f)) f) ss)).lookup
        (fastq_ext_strip (basename f)) = some rec ∧
      ∃ g ∈ l, fastq_ext_strip (basename g) = fastq_ext_strip (basename f) ∧
        rec.r1 = some g := by
  obtain ⟨l₁, l₂, hsplit⟩ := List.append_of_mem hf
  subst hsplit
  rw [List.foldl_append, List.foldl_cons]
  apply singles_fold_key (l₁ ++ f :: l₂) _ l₂
    (fun x hx => List.mem_append_right _ (List.mem_cons_of_mem _ hx))
  refine ⟨⟨some f, (getRec (l₁.foldl (fun ss f => setR1 ss (fastq_ext_strip (basename f)) f) ss)
      (fastq_ext_strip (basename f))).r2⟩, ?_,
    f, List.mem_append_right _ (List.mem_cons_self ..), rfl, rfl⟩
  rw [lookup_setR1]
  simp

/-! ## Claims C6, C7, C8, C10 -/

/-- C6: the input `{"D_R1.fastq.gz"}` alone (a mate-1 match with no mate-2
counterpart) yields one single-end SampleRecord named `D_R1` (raw basename
minus the FASTQ extension, not the stem `D`), with `mate1` set and `mate2`
absent. -/
theorem C6_unpaired_mate1_single_end :
    parse_fastq_pairs ["D_R1.fastq.gz"] =
      [("D_R1", ⟨some "D_R1.fastq.gz", none⟩)] := by decide

/-- C7: the resolver is total: the embedding is a total function (every
Python operation it models — set arithmetic, matching against the fixed
compiled patterns, `defaultdict` access — is non-raising), the empty input
yields the empty mapping, and a file matching no convention pattern yields a
single-end record under its stripped basename rather than an error. -/
theorem C7_total (files : List String) :
    parse_fastq_pairs [] = [] ∧
      ∀ f ∈ files, (∀ r ∈ paired_patterns,
          stemOf r.r1sufs (basename f) = none ∧
          stemOf r.r2sufs (basename f) = none) →
        ∃ rec, (parse_fastq_pairs files).lookup (fastq_ext_strip (basename f))
            = some rec ∧ rec.r1.isSome := by
  refine ⟨by decide, ?_⟩
  intro f hf hnone
  have hsurv : f ∈ (applyRules paired_patterns [] files.dedup).2 :=
    mem_applyRules_remaining (List.mem_dedup.mpr hf) hnone
  rw [parse_def]
  rcases singles_binds hsurv (applyRules paired_patterns [] files.dedup).1 with
    ⟨rec, hl, g, _, _, hr1⟩
  exact ⟨rec, hl, by simp [hr1]⟩

/-- Witness for C7: the empty input and the completely unmatched file
`C.fastq.gz`. -/
theorem C7_witness :
    parse_fastq_pairs [] = [] ∧
      ∃ rec, (parse_fastq_pairs ["C.fastq.gz"]).lookup
          (fastq_ext_strip (basename "C.fastq.gz")) = some rec ∧ rec.r1.isSome :=
  ⟨(C7_total []).1,
    (C7_total ["C.fastq.gz"]).2 "C.fastq.gz" (by decide) (by decide)⟩

/-- C8: the resolver is deterministic and idempotent over the input set: two
runs presented with the same working set (the same deduplicated file list)
produce identical partitions. -/
theorem C8_deterministic (files1 files2 : List String)
    (h : files1.dedup = files2.dedup) :
    parse_fastq_pairs files1 = parse_fastq_pairs files2 := by
  rw [parse_def, parse_def, h]

/-- Witness for C8: a duplicated presentation of the same set. -/
theorem C8_witness :
    parse_fastq_pairs ["a.fq", "a.fq"] = parse_fastq_pairs ["a.fq"] :=
  C8_deterministic ["a.fq", "a.fq"] ["a.fq"] (by decide)

/-- C10: with an S3 prefix mapping, `write_samplesheet` replaces every
occurrence of the local-prefix substring anywhere in each resolved path
(Python `str.replace` semantics, not only a leading match) — also mid-path
and in a nonempty `fastq_2` — and applies the substitution to `fastq_2` only
when it is nonempty (so an empty local prefix does not fabricate a `fastq_2`
value for a single-end row). -/
theorem C10_s3_substring_replace :
    write_samplesheet [("S", ⟨some "/x/LOC/mid/LOC/f.fq", none⟩)] "auto"
        (some ("LOC", "S3")) =
      ["sample,fastq_1,fastq_2,strandedness", "S,/x/S3/mid/S3/f.fq,,auto"] ∧
    write_samplesheet [("S", ⟨some "LOCa", some "bLOC"⟩)] "reverse"
        (some ("LOC", "S3")) =
      ["sample,fastq_1,fastq_2,strandedness", "S,S3a,bS3,reverse"] ∧
    write_samplesheet [("S", ⟨some "p", none⟩)] "auto" (some ("", "Z")) =
      ["sample,fastq_1,fastq_2,strandedness", "S,ZpZ,,auto"] := by decide

/-! ## Event-trace simulation of a rule pass -/

theorem tryFile_events (rule : Rule) (remaining : List String) (st : PassState)
    (g : String) :
    (tryFile rule remaining st g).events =
      st.events ++ (tryFile rule remaining ⟨[], [], []⟩ g).events := by
  rcases hstem : stemOf rule.r1sufs (basename g) with _ | stem
  · simp [tryFile, hstem]
  · rcases hfind : remaining.find?
        (fun file2 => stemOf rule.r2sufs (basename file2) == some stem) with _ | file2
    · simp [tryFile, hstem, hfind]
    · simp [tryFile, hstem, hfind]

theorem tryFile_samples_eq (rule : Rule) (remaining : List String)
    (st : PassState) (g : String) :
    (tryFile rule remaining st g).samples =
      ((tryFile rule remaining ⟨[], [], []⟩ g).events).foldl
        (fun ss ev => setPair ss ev.1 ev.2.1 ev.2.2) st.samples := by
  rcases hstem : stemOf rule.r1sufs (basename g) with _ | stem
  · simp [tryFile, hstem]
  · rcases hfind : remaining.find?
        (fun file2 => stemOf rule.r2sufs (basename file2) == some stem) with _ | file2
    · simp [tryFile, hstem, hfind]
    · simp [tryFile, hstem, hfind]

theorem events_indep (rule : Rule) (remaining : List String) :
    ∀ (l : List String) (st : PassState),
    (l.foldl (tryFile rule remaining) st).events =
      st.events ++ (l.foldl (tryFile rule remaining) ⟨[], [], []⟩).events := by
  intro l
  induction l with
  | nil => intro st; simp
  | cons g rest ih =>
    intro st
    rw [List.foldl_cons, List.foldl_cons, ih (tryFile rule remaining st g),
      ih (tryFile rule remaining ⟨[], [], []⟩ g), tryFile_events,
      tryFile_events rule remaining ⟨[], [], []⟩ g]
    simp [List.append_assoc]

theorem foldl_tryFile_samples (rule : Rule) (remaining : List String) :
    ∀ (l : List String) (st : PassState),
    (l.foldl (tryFile rule remaining) st).samples =
      ((l.foldl (tryFile rule remaining) ⟨[], [], []⟩).events).foldl
        (fun ss ev => setPair ss ev.1 ev.2.1 ev.2.2) st.samples := by
  intro l
  induction l with
  | nil => intro st; simp
  | cons g rest ih =>
    intro st
    rw [List.foldl_cons, List.foldl_cons, ih (tryFile rule remaining st g),
      events_indep rule remaining rest (tryFile rule remaining ⟨[], [], []⟩ g),
      tryFile_events rule remaining ⟨[], [], []⟩ g, tryFile_samples_eq,
      List.nil_append, List.foldl_append]

theorem lookup_foldl_setPair (s : String) :
    ∀ (E : List (String × String × String)) (ss : Samples),
    (E.foldl (fun ss ev => setPair ss ev.1 ev.2.1 ev.2.2) ss).lookup s =
      match (E.filter (fun ev => ev.1 == s)).getLast? with
      | some e => some ⟨some e.2.1, some e.2.2⟩
      | none => ss.lookup s := by
  intro E
  induction E using List.reverseRecOn with
  | nil => intro ss; simp
  | append_singleton E e ih =>
    intro ss
    rw [List.foldl_append, List.foldl_cons, List.foldl_nil, List.filter_append]
    by_cases he : e.1 = s
    · rw [List.filter_cons_of_pos (by simp [he]), List.filter_nil,
        List.getLast?_concat, lookup_setPair]
      simp [he]
    · rw [List.filter_cons_of_neg (by simp [he]), List.filter_nil,
        List.append_nil, lookup_setPair, if_neg (fun hc => he hc.symm), ih]

/-- The mapping a rule pass produces, at any key: the pair of the last
binding event for that stem, or the incoming record. -/
theorem rulePass_lookup_char (rule : Rule) (samples : Samples)
    (remaining : List String) (s : String) :
    (rulePass rule samples remaining).1.lookup s =
      match ((passEvents rule remaining).filter (fun ev => ev.1 == s)).getLast? with
      | some e => some ⟨some e.2.1, some e.2.2⟩
      | none => samples.lookup s := by
  show (remaining.foldl (tryFile rule remaining) ⟨samples, [], []⟩).samples.lookup s = _
  rw [foldl_tryFile_samples, lookup_foldl_setPair]
  rfl

/-! ## Claim C2 -/

/-- Counterexample to C2 as stated: during rule 1's single pass over the
working set {d1/A_R1.fastq.gz, d2/A_R1.fastq.gz, A_R2.fastq.gz}, two
distinct (mate1, mate2) pairs are recorded under the stem A — the claim that
at most one pair is recorded under any stem per rule pass is false. -/
theorem C2_counterexample :
    ¬ (∀ r ∈ paired_patterns, ∀ (remaining : List String) (s : String),
        ((passEvents r remaining).filter (fun ev => ev.1 == s)).length ≤ 1) := by
  intro h
  exact absurd
    (h ⟨mateSufs "_R1" true, mateSufs "_R2" true⟩ (by decide)
      ["d1/A_R1.fastq.gz", "d2/A_R1.fastq.gz", "A_R2.fastq.gz"] "A")
    (by decide)

/-- C2 amended: within a single rule pass a stem can record several
(mate1, mate2) pairs, each later binding event overwriting the earlier one;
what the pass retains under a stem is exactly the pair of the last binding
event for that stem. -/
theorem C2_last_binding_wins (rule : Rule) (samples : Samples)
    (remaining : List String) (s : String) (e : String × String × String)
    (hlast : ((passEvents rule remaining).filter (fun ev => ev.1 == s)).getLast?
      = some e) :
    (rulePass rule samples remaining).1.lookup s =
      some ⟨some e.2.1, some e.2.2⟩ := by
  rw [rulePass_lookup_char, hlast]

/-- Witness for C2's amended claim at the two-binding input: the second
binding's pair is what rule 1's pass retains under stem A. -/
theorem C2_witness :
    (rulePass ⟨mateSufs "_R1" true, mateSufs "_R2" true⟩ []
        ["d1/A_R1.fastq.gz", "d2/A_R1.fastq.gz", "A_R2.fastq.gz"]).1.lookup "A" =
      some ⟨some "d2/A_R1.fastq.gz", some "A_R2.fastq.gz"⟩ :=
  C2_last_binding_wins ⟨mateSufs "_R1" true, mateSufs "_R2" true⟩ []
    ["d1/A_R1.fastq.gz", "d2/A_R1.fastq.gz", "A_R2.fastq.gz"] "A"
    ("A", "d2/A_R1.fastq.gz", "A_R2.fastq.gz") (by decide)

/-! ## Claim C5 -/

/-- Counterexample to C5 as stated: with input {A_R1.fastq.gz, A_R2.fastq.gz,
A.fastq.gz}, the file A.fastq.gz is still unclaimed after all rule passes,
and the single-end binding writes its mate1 under the stripped name A — but
the resulting record also carries a mate2 slot left over from the pair
binding under the colliding stem A, so it is false that "only the mate1 slot
is set". -/
theorem C5_counterexample :
    remainingAfterRules ["A_R1.fastq.gz", "A_R2.fastq.gz", "A.fastq.gz"]
        = ["A.fastq.gz"] ∧
      (parse_fastq_pairs ["A_R1.fastq.gz", "A_R2.fastq.gz", "A.fastq.gz"]).lookup
          (fastq_ext_strip (basename "A.fastq.gz")) =
        some ⟨some "A.fastq.gz", some "A_R2.fastq.gz"⟩ := by decide

theorem getRec_r2_eq_bind (ss : Samples) (k : String) :
    (getRec ss k).r2 = (ss.lookup k).bind Record.r2 := by
  rw [getRec]
  rcases h : ss.lookup k with _ | rec0
  · rfl
  · rfl

/-- The single-end fold, at any key: `mate1` becomes the last processed file
whose stripped basename is the key (the incoming record otherwise), and
`mate2` is exactly what the incoming mapping held under the key. -/
theorem singles_fold_lookup (k : String) :
    ∀ (l : List String) (ss : Samples),
    (l.foldl (fun ss f => setR1 ss (fastq_ext_strip (basename f)) f) ss).lookup k =
      match (l.filter (fun g => fastq_ext_strip (basename g) == k)).getLast? with
      | some g => some ⟨some g, (ss.lookup k).bind Record.r2⟩
      | none => ss.lookup k := by
  intro l
  induction l using List.reverseRecOn with
  | nil => intro ss; simp
  | append_singleton l a ih =>
    intro ss
    rw [List.foldl_append, List.foldl_cons, List.foldl_nil, List.filter_append]
    by_cases ha : fastq_ext_strip (basename a) = k
    · rw [List.filter_cons_of_pos (by simp [ha]), List.filter_nil,
        List.getLast?_concat, lookup_setR1, if_pos ha.symm, ha,
        getRec_r2_eq_bind, ih ss]
      rcases hg : (l.filter (fun g => fastq_ext_strip (basename g) == k)).getLast?
        with _ | g
      · rfl
      · rfl
    · rw [List.filter_cons_of_neg (by simp [ha]), List.filter_nil,
        List.append_nil, lookup_setR1, if_neg (fun hc => ha hc.symm), ih ss]

/-- C5 amended: after all rules are applied, every still-unclaimed file is
written into the mate1 slot of the record named by its extension-stripped
basename (case-sensitive, among .fastq.gz, .fq.gz, .fastq, .fq): the
record's mate1 is the last unclaimed file with that stripped name, and its
mate2 is exactly the slot the mapping already held under that name after the
rule passes — retained rather than cleared; the input {"C.fastq.gz"} yields
exactly one record C with mate1 = C.fastq.gz and no mate2. -/
theorem C5_single_end_binding (files : List String) (f : String)
    (hf : f ∈ remainingAfterRules files) :
    (∃ rec, (parse_fastq_pairs files).lookup (fastq_ext_strip (basename f))
        = some rec ∧
      rec.r1 = ((remainingAfterRules files).filter
        (fun g => fastq_ext_strip (basename g) == fastq_ext_strip (basename f))).getLast? ∧
      rec.r2 = ((samplesAfterRules files).lookup
        (fastq_ext_strip (basename f))).bind Record.r2) ∧
    parse_fastq_pairs ["C.fastq.gz"] = [("C", ⟨some "C.fastq.gz", none⟩)] := by
  constructor
  · have key := singles_fold_lookup (fastq_ext_strip (basename f))
      (remainingAfterRules files) (samplesAfterRules files)
    have hfmem : f ∈ (remainingAfterRules files).filter
        (fun g => fastq_ext_strip (basename g) == fastq_ext_strip (basename f)) := by
      rw [List.mem_filter]
      exact ⟨hf, by simp⟩
    rcases hlast : ((remainingAfterRules files).filter
        (fun g => fastq_ext_strip (basename g) == fastq_ext_strip (basename f))).getLast?
        with _ | g
    · exfalso
      rw [List.getLast?_eq_none_iff.mp hlast] at hfmem
      cases hfmem
    · rw [hlast] at key
      refine ⟨⟨some g, ((samplesAfterRules files).lookup
          (fastq_ext_strip (basename f))).bind Record.r2⟩, ?_, ?_, rfl⟩
      · exact key
      · rfl
  · decide

/-- Witness for C5's amended claim at the unmatched single file. -/
theorem C5_witness :
    (∃ rec, (parse_fastq_pairs ["C.fastq.gz"]).lookup
        (fastq_ext_strip (basename "C.fastq.gz")) = some rec ∧
      rec.r1 = ((remainingAfterRules ["C.fastq.gz"]).filter
        (fun g => fastq_ext_strip (basename g)
          == fastq_ext_strip (basename "C.fastq.gz"))).getLast? ∧
      rec.r2 = ((samplesAfterRules ["C.fastq.gz"]).lookup
        (fastq_ext_strip (basename "C.fastq.gz"))).bind Record.r2) ∧
    parse_fastq_pairs ["C.fastq.gz"] = [("C", ⟨some "C.fastq.gz", none⟩)] :=
  C5_single_end_binding ["C.fastq.gz"] "C.fastq.gz" (by decide)

/-! ## Claimed files are removed from the working set -/

theorem tryFile_matched_events_congr (rule : Rule) (remaining : List String)
    (g : String) (st1 st2 : PassState) (hm : st1.matched = st2.matched)
    (he : st1.events = st2.events) :
    (tryFile rule remaining st1 g).matched = (tryFile rule remaining st2 g).matched ∧
    (tryFile rule remaining st1 g).events = (tryFile rule remaining st2 g).events := by
  rcases hstem : stemOf rule.r1sufs (basename g) with _ | stem
  · simp [tryFile, hstem, hm, he]
  · rcases hfind : remaining.find?
        (fun file2 => stemOf rule.r2sufs (basename file2) == some stem) with _ | file2
    · simp [tryFile, hstem, hfind, hm, he]
    · simp [tryFile, hstem, hfind, hm, he]

theorem foldl_matched_events_congr (rule : Rule) (remaining : List String) :
    ∀ (l : List String) (st1 st2 : PassState), st1.matched = st2.matched →
    st1.events = st2.events →
    (l.foldl (tryFile rule remaining) st1).matched
        = (l.foldl (tryFile rule remaining) st2).matched ∧
    (l.foldl (tryFile rule remaining) st1).events
        = (l.foldl (tryFile rule remaining) st2).events := by
  intro l
  induction l with
  | nil => intro st1 st2 hm he; exact ⟨hm, he⟩
  | cons g rest ih =>
    intro st1 st2 hm he
    rw [List.foldl_cons, List.foldl_cons]
    have hstep := tryFile_matched_events_congr rule remaining g st1 st2 hm he
    exact ih _ _ hstep.1 hstep.2

theorem matched_mono (rule : Rule) (remaining : List String) :
    ∀ (l : List String) (st : PassState),
    st.matched ⊆ (l.foldl (tryFile rule remaining) st).matched := by
  intro l
  induction l with
  | nil => intro st x hx; exact hx
  | cons g rest ih =>
    intro st x hx
    rw [List.foldl_cons]
    refine ih (tryFile rule remaining st g) ?_
    rcases hstem : stemOf rule.r1sufs (basename g) with _ | stem
    · simpa [tryFile, hstem] using hx
    · rcases hfind : remaining.find?
          (fun file2 => stemOf rule.r2sufs (basename file2) == some stem) with _ | file2
      · simpa [tryFile, hstem, hfind] using hx
      · simp only [tryFile, hstem, hfind]
        exact List.mem_cons_of_mem _ (List.mem_cons_of_mem _ hx)

theorem event_files_matched (rule : Rule) (remaining : List String) :
    ∀ (l : List String) (st : PassState) (ev : String × String × String),
    ev ∈ (l.foldl (tryFile rule remaining) st).events →
    ev ∈ st.events ∨
      (ev.2.1 ∈ (l.foldl (tryFile rule remaining) st).matched ∧
       ev.2.2 ∈ (l.foldl (tryFile rule remaining) st).matched) := by
  intro l
  induction l with
  | nil => intro st ev hev; exact Or.inl hev
  | cons g rest ih =>
    intro st ev hev
    rw [List.foldl_cons] at hev ⊢
    rcases ih (tryFile rule remaining st g) ev hev with hin | hfiles
    · rw [tryFile_events] at hin
      rcases List.mem_append.mp hin with hin0 | hnew
      · exact Or.inl hin0
      · rcases hstem : stemOf rule.r1sufs (basename g) with _ | stem
        · rw [tryFile] at hnew
          simp [hstem] at hnew
        · rcases hfind : remaining.find?
              (fun file2 => stemOf rule.r2sufs (basename file2) == some stem) with _ | file2
          · rw [tryFile] at hnew
            simp [hstem, hfind] at hnew
          · rw [tryFile] at hnew
            simp only [hstem, hfind, List.nil_append, List.mem_singleton] at hnew
            subst hnew
            refine Or.inr ⟨?_, ?_⟩
            · refine matched_mono rule remaining rest (tryFile rule remaining st g) ?_
              simp [tryFile, hstem, hfind]
            · refine matched_mono rule remaining rest (tryFile rule remaining st g) ?_
              simp [tryFile, hstem, hfind]
    · exact Or.inr hfiles

/-! ## Claim C4 -/

/-- C4: the four convention rules are applied in the fixed priority order
(_R1/_R2 with optional _001, then _1/_2, then .R1/.R2, then .1/.2); every
file claimed by a pass (appearing in one of its binding events) is removed
from the working set that later rules draw from, so it is never re-matched;
and the set {S_1_R1.fastq.gz, S_1_R2.fastq.gz} — which carries incidental
_1-style substrings — resolves via rule 1 with rule 1's stem S_1, leaving
nothing for rule 2. -/
theorem C4_rule_priority :
    paired_patterns =
      [⟨mateSufs "_R1" true, mateSufs "_R2" true⟩,
       ⟨mateSufs "_1" false, mateSufs "_2" false⟩,
       ⟨mateSufs ".R1" false, mateSufs ".R2" false⟩,
       ⟨mateSufs ".1" false, mateSufs ".2" false⟩] ∧
    (∀ (rule : Rule) (samples : Samples) (remaining : List String) (f : String),
      (∃ ev ∈ passEvents rule remaining, f = ev.2.1 ∨ f = ev.2.2) →
      f ∉ (rulePass rule samples remaining).2) ∧
    (∀ (rule : Rule) (samples : Samples) (remaining : List String),
      (rulePass rule samples remaining).2 ⊆ remaining) ∧
    passEvents ⟨mateSufs "_R1" true, mateSufs "_R2" true⟩
        ["S_1_R1.fastq.gz", "S_1_R2.fastq.gz"] =
      [("S_1", "S_1_R1.fastq.gz", "S_1_R2.fastq.gz")] ∧
    (rulePass ⟨mateSufs "_R1" true, mateSufs "_R2" true⟩ []
        ["S_1_R1.fastq.gz", "S_1_R2.fastq.gz"]).2 = [] ∧
    parse_fastq_pairs ["S_1_R1.fastq.gz", "S_1_R2.fastq.gz"] =
      [("S_1", ⟨some "S_1_R1.fastq.gz", some "S_1_R2.fastq.gz"⟩)] := by
  refine ⟨rfl, ?_, ?_, by decide, by decide, by decide⟩
  · intro rule samples remaining f hev hmem
    rcases hev with ⟨ev, hev, hf⟩
    have hm : f ∈ (remaining.foldl (tryFile rule remaining) ⟨samples, [], []⟩).matched := by
      have hm0 : f ∈ (remaining.foldl (tryFile rule remaining) ⟨[], [], []⟩).matched := by
        rcases event_files_matched rule remaining remaining ⟨[], [], []⟩ ev hev with h0 | hf2
        · simp at h0
        · rcases hf with rfl | rfl
          · exact hf2.1
          · exact hf2.2
      rw [(foldl_matched_events_congr rule remaining remaining
        ⟨samples, [], []⟩ ⟨[], [], []⟩ rfl rfl).1]
      exact hm0
    have : f ∈ remaining.filter
        (fun x => !((remaining.foldl (tryFile rule remaining) ⟨samples, [], []⟩).matched.contains x)) :=
      hmem
    rw [List.mem_filter] at this
    rw [Bool.not_eq_true', ← Bool.not_eq_true] at this
    exact this.2 (List.elem_iff.mpr hm)
  · intro rule samples remaining
    exact rulePass_remaining_subset rule samples remaining

/-- Witness for C4: the mate-1 file of the concrete scenario is claimed by
rule 1's pass and removed from the working set. -/
theorem C4_witness :
    "S_1_R1.fastq.gz" ∉ (rulePass ⟨mateSufs "_R1" true, mateSufs "_R2" true⟩ []
        ["S_1_R1.fastq.gz", "S_1_R2.fastq.gz"]).2 :=
  C4_rule_priority.2.1 ⟨mateSufs "_R1" true, mateSufs "_R2" true⟩ []
    ["S_1_R1.fastq.gz", "S_1_R2.fastq.gz"] "S_1_R1.fastq.gz"
    ⟨("S_1", "S_1_R1.fastq.gz", "S_1_R2.fastq.gz"), by decide, Or.inl rfl⟩

/-! ## Sorting lemmas for the CSV writer -/

theorem strLeB_total : ∀ (a b : List Char),
    strLeB a b = true ∨ strLeB b a = true := by
  intro a
  induction a with
  | nil => intro b; left; rfl
  | cons x xs ih =>
    intro b
    cases b with
    | nil => right; rfl
    | cons y ys =>
      rcases lt_trichotomy x y with hxy | hxy | hxy
      · left
        simp [strLeB, hxy]
      · subst hxy
        rcases ih ys with h | h
        · left
          simp [strLeB, h]
        · right
          simp [strLeB, h]
      · right
        simp [strLeB, hxy]

theorem strLeB_trans : ∀ (a b c : List Char), strLeB a b = true →
    strLeB b c = true → strLeB a c = true := by
  intro a
  induction a with
  | nil => intro b c _ _; rfl
  | cons x xs ih =>
    intro b c hab hbc
    cases b with
    | nil => simp [strLeB] at hab
    | cons y ys =>
      cases c with
      | nil => simp [strLeB] at hbc
      | cons z zs =>
        rcases lt_trichotomy x y with hxy | hxy | hxy
        · rcases lt_trichotomy y z with hyz | hyz | hyz
          · simp [strLeB, lt_trans hxy hyz]
          · subst hyz
            simp [strLeB, hxy]
          · rw [strLeB, if_neg (asymm hyz), if_neg (ne_of_gt hyz)] at hbc
            cases hbc
        · subst hxy
          rw [strLeB, if_neg (lt_irrefl x), if_pos rfl] at hab
          rcases lt_trichotomy x z with hyz | hyz | hyz
          · simp [strLeB, hyz]
          · subst hyz
            rw [strLeB, if_neg (lt_irrefl x), if_pos rfl] at hbc ⊢
            exact ih ys zs hab hbc
          · rw [strLeB, if_neg (asymm hyz), if_neg (ne_of_gt hyz)] at hbc
            cases hbc
        · rw [strLeB, if_neg (asymm hxy), if_neg (ne_of_gt hxy)] at hab
          cases hab

theorem insertByName_perm (x : String × Record) :
    ∀ (l : Samples), (insertByName x l).Perm (x :: l) := by
  intro l
  induction l with
  | nil => exact List.Perm.refl _
  | cons y ys ih =>
    rw [insertByName]
    by_cases h : strLeB x.1.data y.1.data
    · rw [if_pos h]
    · rw [if_neg h]
      exact (ih.cons y).trans (List.Perm.swap x y ys)

theorem sortByName_perm : ∀ (ss : Samples), (sortByName ss).Perm ss := by
  intro ss
  induction ss with
  | nil => exact List.Perm.refl _
  | cons x xs ih =>
    exact (insertByName_perm x (sortByName xs)).trans (ih.cons x)

theorem insertByName_sorted (x : String × Record) :
    ∀ (l : Samples),
    List.Pairwise (fun a b : String × Record => strLeB a.1.data b.1.data = true) l →
    List.Pairwise (fun a b : String × Record => strLeB a.1.data b.1.data = true)
      (insertByName x l) := by
  intro l
  induction l with
  | nil => intro _; exact List.pairwise_singleton _ _
  | cons y ys ih =>
    intro h
    rcases List.pairwise_cons.mp h with ⟨hy, hys⟩
    rw [insertByName]
    by_cases hxy : strLeB x.1.data y.1.data
    · rw [if_pos hxy]
      refine List.Pairwise.cons ?_ h
      intro a ha
      rcases List.mem_cons.mp ha with rfl | ha'
      · exact hxy
      · exact strLeB_trans _ _ _ hxy (hy a ha')
    · rw [if_neg hxy]
      refine List.Pairwise.cons ?_ (ih hys)
      intro a ha
      rcases List.mem_cons.mp (((insertByName_perm x ys).mem_iff).mp ha) with rfl | ha'
      · rcases strLeB_total a.1.data y.1.data with h1 | h2
        · exact absurd h1 hxy
        · exact h2
      · exact hy a ha'

theorem sortByName_sorted : ∀ (ss : Samples),
    List.Pairwise (fun a b : String × Record => strLeB a.1.data b.1.data = true)
      (sortByName ss) := by
  intro ss
  induction ss with
  | nil => exact List.Pairwise.nil
  | cons x xs ih => exact insertByName_sorted x (sortByName xs) ih

/-! ## Claim C9 -/

/-- C9: `write_samplesheet` (without S3 remapping) emits exactly the header
`sample,fastq_1,fastq_2,strandedness` followed by one row per sample — a
permutation of the input mapping arranged in lexicographic (code-point)
order of sample name — each row `name,fastq_1,fastq_2,strandedness` carrying
the single uniform strandedness label, and with the `fastq_2` field empty
(`name,r1,,label`) for records with no mate2 slot. -/
theorem C9_samplesheet_layout (samples : Samples) (strandedness : String) :
    ∃ sorted : Samples,
      sorted.Perm samples ∧
      List.Pairwise (fun a b : String × Record => strLeB a.1.data b.1.data = true)
        sorted ∧
      write_samplesheet samples strandedness none =
        "sample,fastq_1,fastq_2,strandedness" ::
          sorted.map (formatRow strandedness none) ∧
      ∀ e ∈ samples, e.2.r2 = none →
        formatRow strandedness none e =
          e.1 ++ "," ++ e.2.r1.getD "" ++ ",," ++ strandedness := by
  refine ⟨sortByName samples, sortByName_perm samples, sortByName_sorted samples,
    rfl, ?_⟩
  intro e _ hr2
  show e.1 ++ "," ++ e.2.r1.getD "" ++ "," ++ e.2.r2.getD "" ++ "," ++ strandedness = _
  rw [hr2]
  show e.1 ++ "," ++ e.2.r1.getD "" ++ "," ++ "" ++ "," ++ strandedness = _
  rw [String.append_empty, show (",," : String) = "," ++ "," from rfl,
    ← String.append_assoc]

/-- Witness for C9 at a two-sample mapping given out of order, one sample
single-end. -/
theorem C9_witness :
    ∃ sorted : Samples,
      sorted.Perm [("B", ⟨some "b.fq", none⟩), ("A", ⟨some "a1.fq", some "a2.fq"⟩)] ∧
      List.Pairwise (fun a b : String × Record => strLeB a.1.data b.1.data = true)
        sorted ∧
      write_samplesheet [("B", ⟨some "b.fq", none⟩), ("A", ⟨some "a1.fq", some "a2.fq"⟩)]
          "reverse" none =
        "sample,fastq_1,fastq_2,strandedness" ::
          sorted.map (formatRow "reverse" none) ∧
      ∀ e ∈ [(("B" : String), (⟨some "b.fq", none⟩ : Record)),
          ("A", ⟨some "a1.fq", some "a2.fq"⟩)], e.2.r2 = none →
        formatRow "reverse" none e =
          e.1 ++ "," ++ e.2.r1.getD "" ++ ",," ++ "reverse" :=
  C9_samplesheet_layout
    [("B", ⟨some "b.fq", none⟩), ("A", ⟨some "a1.fq", some "a2.fq"⟩)] "reverse"

/-! ## Whole-run event trace -/

theorem rulePass_remaining_indep (rule : Rule) (samples : Samples)
    (remaining : List String) :
    (rulePass rule samples remaining).2 = (rulePass rule [] remaining).2 := by
  show remaining.filter _ = remaining.filter _
  rw [(foldl_matched_events_congr rule remaining remaining
    ⟨samples, [], []⟩ ⟨[], [], []⟩ rfl rfl).1]

theorem applyRules_remaining_indep :
    ∀ (rules : List Rule) (samples : Samples) (remaining : List String),
    (applyRules rules samples remaining).2 = (applyRules rules [] remaining).2 := by
  intro rules
  induction rules with
  | nil => intro samples remaining; rfl
  | cons r0 rest ih =>
    intro samples remaining
    simp only [applyRules]
    rw [ih (rulePass r0 samples remaining).1 (rulePass r0 samples remaining).2,
      ih (rulePass r0 [] remaining).1 (rulePass r0 [] remaining).2,
      rulePass_remaining_indep]

theorem rulePass_samples_eq_events (rule : Rule) (samples : Samples)
    (remaining : List String) :
    (rulePass rule samples remaining).1 =
      (passEvents rule remaining).foldl
        (fun ss e => setPair ss e.1 e.2.1 e.2.2) samples := by
  show (remaining.foldl (tryFile rule remaining) ⟨samples, [], []⟩).samples = _
  rw [foldl_tryFile_samples]
  rfl

theorem applyRules_samples_eq_events :
    ∀ (rules : List Rule) (samples : Samples) (remaining : List String),
    (applyRules rules samples remaining).1 =
      (runBindEvents rules remaining).foldl
        (fun ss e => setPair ss e.1 e.2.1 e.2.2) samples := by
  intro rules
  induction rules with
  | nil => intro samples remaining; rfl
  | cons r0 rest ih =>
    intro samples remaining
    simp only [applyRules, runBindEvents]
    rw [ih (rulePass r0 samples remaining).1 (rulePass r0 samples remaining).2,
      List.foldl_append, rulePass_samples_eq_events,
      rulePass_remaining_indep]

/-- The resolver's mapping is the replay of its event trace. -/
theorem parse_eq_foldl_events (files : List String) :
    parse_fastq_pairs files = (runEvents files).foldl applyEv [] := by
  rw [parse_def, runEvents, List.foldl_append, List.foldl_map, List.foldl_map,
    applyRules_samples_eq_events]
  show List.foldl _ (List.foldl _ _ _) (remainingAfterRules files) = _
  have h1 : ∀ (E : List (String × String × String)) (ss : Samples),
      E.foldl (fun ss e => setPair ss e.1 e.2.1 e.2.2) ss =
        E.foldl (fun ss e => applyEv ss (e.1, e.2.1, some e.2.2)) ss := by
    intro E
    induction E with
    | nil => intro ss; rfl
    | cons e E ih => intro ss; rw [List.foldl_cons, List.foldl_cons, ih]; rfl
  rw [← h1]
  rfl

theorem lookup_eq_none_of_not_key {ss : Samples} {k : String}
    (h : k ∉ keysOf ss) : ss.lookup k = none := by
  induction ss with
  | nil => rfl
  | cons e rest ih =>
    have hk : k ≠ e.1 := fun hc => h (by rw [hc]; exact List.mem_cons_self ..)
    have : (k == e.1) = false := by simpa [beq_iff_eq] using hk
    obtain ⟨k', r'⟩ := e
    simp only [List.lookup, this]
    exact ih (fun hc => h (List.mem_cons_of_mem _ hc))

theorem setRecord_append_of_not_key {ss : Samples} {k : String} (r : Record)
    (h : k ∉ keysOf ss) : setRecord ss k r = ss ++ [(k, r)] := by
  induction ss with
  | nil => rfl
  | cons e rest ih =>
    obtain ⟨k', r'⟩ := e
    have hk : k' ≠ k := fun hc => h (by rw [← hc]; exact List.mem_cons_self ..)
    simp only [setRecord, if_neg hk, List.cons_append]
    rw [ih (fun hc => h (List.mem_cons_of_mem _ hc))]

theorem applyEv_fresh {ss : Samples} {e : Ev} (h : e.1 ∉ keysOf ss) :
    applyEv ss e = ss ++ [(e.1, ⟨some e.2.1, e.2.2⟩)] := by
  rcases he : e.2.2 with _ | f2
  · simp only [applyEv, he, setR1, getRec, lookup_eq_none_of_not_key h,
      Option.getD_none]
    exact setRecord_append_of_not_key _ h
  · simp only [applyEv, he, setPair]
    exact setRecord_append_of_not_key _ h

theorem keysOf_append (ss1 ss2 : Samples) :
    keysOf (ss1 ++ ss2) = keysOf ss1 ++ keysOf ss2 := by
  simp [keysOf]

theorem slotFiles_append (ss1 ss2 : Samples) :
    slotFiles (ss1 ++ ss2) = slotFiles ss1 ++ slotFiles ss2 := by
  simp [slotFiles]

/-- Replaying events whose names are fresh and pairwise distinct appends one
record per event: the keys are the event names and the slots hold exactly
the event files. -/
theorem foldl_applyEv_fresh :
    ∀ (E : List Ev) (ss : Samples), (∀ e ∈ E, e.1 ∉ keysOf ss) →
    (E.map (fun e => e.1)).Nodup →
    keysOf (E.foldl applyEv ss) = keysOf ss ++ E.map (fun e => e.1) ∧
    slotFiles (E.foldl applyEv ss) = slotFiles ss ++ E.flatMap evFiles := by
  intro E
  induction E with
  | nil => intro ss _ _; simp
  | cons e E ih =>
    intro ss hfresh hnodup
    rw [List.foldl_cons, applyEv_fresh (hfresh e (List.mem_cons_self ..))]
    have hfresh' : ∀ e' ∈ E, e'.1 ∉ keysOf (ss ++ [(e.1, ⟨some e.2.1, e.2.2⟩)]) := by
      intro e' he' hc
      rw [keysOf_append] at hc
      rcases List.mem_append.mp hc with hc1 | hc2
      · exact hfresh e' (List.mem_cons_of_mem _ he') hc1
      · have : e'.1 = e.1 := by simpa [keysOf] using hc2
        rw [List.map_cons] at hnodup
        exact (List.nodup_cons.mp hnodup).1 (this ▸ List.mem_map_of_mem _ he')
    rcases ih (ss ++ [(e.1, ⟨some e.2.1, e.2.2⟩)]) hfresh'
      (by rw [List.map_cons] at hnodup; exact (List.nodup_cons.mp hnodup).2) with ⟨hk, hs⟩
    constructor
    · rw [hk, keysOf_append]
      simp [keysOf]
    · rw [hs, slotFiles_append]
      have : slotFiles [(e.1, ⟨some e.2.1, e.2.2⟩)] = evFiles e := by
        simp [slotFiles, evFiles]
      rw [this]
      simp

/-! ## Facts about the events of one pass -/

theorem passEvents_facts (rule : Rule) (remaining : List String) :
    ∀ (l : List String) (st : PassState) (ev : String × String × String),
    ev ∈ (l.foldl (tryFile rule remaining) st).events →
    ev ∈ st.events ∨
      (ev.2.1 ∈ l ∧ ev.2.2 ∈ remaining ∧
        stemOf rule.r1sufs (basename ev.2.1) = some ev.1 ∧
        stemOf rule.r2sufs (basename ev.2.2) = some ev.1) := by
  intro l
  induction l with
  | nil => intro st ev hev; exact Or.inl hev
  | cons g rest ih =>
    intro st ev hev
    rw [List.foldl_cons] at hev
    rcases ih (tryFile rule remaining st g) ev hev with hin | hfacts
    · rw [tryFile_events] at hin
      rcases List.mem_append.mp hin with hin0 | hnew
      · exact Or.inl hin0
      · rcases hstem : stemOf rule.r1sufs (basename g) with _ | stem
        · rw [tryFile] at hnew
          simp [hstem] at hnew
        · rcases hfind : remaining.find?
              (fun file2 => stemOf rule.r2sufs (basename file2) == some stem) with _ | file2
          · rw [tryFile] at hnew
            simp [hstem, hfind] at hnew
          · rw [tryFile] at hnew
            simp only [hstem, hfind, List.nil_append, List.mem_singleton] at hnew
            subst hnew
            refine Or.inr ⟨List.mem_cons_self .., List.mem_of_find?_eq_some hfind,
              hstem, ?_⟩
            simpa [beq_iff_eq] using List.find?_some hfind
    · rcases hfacts with ⟨h1, h2, h3, h4⟩
      exact Or.inr ⟨List.mem_cons_of_mem _ h1, h2, h3, h4⟩

theorem passEvents_mate1_sublist (rule : Rule) (remaining : List String) :
    ∀ (l : List String) (st : PassState),
    ((l.foldl (tryFile rule remaining) st).events.map (fun e => e.2.1)).Sublist
      ((st.events.map (fun e => e.2.1)) ++ l) := by
  intro l
  induction l with
  | nil => intro st; simp
  | cons g rest ih =>
    intro st
    rw [List.foldl_cons]
    refine (ih (tryFile rule remaining st g)).trans ?_
    rcases hstem : stemOf rule.r1sufs (basename g) with _ | stem
    · simp only [tryFile, hstem]
      exact List.Sublist.append_left (List.sublist_cons_self _ _) _
    · rcases hfind : remaining.find?
          (fun file2 => stemOf rule.r2sufs (basename file2) == some stem) with _ | file2
      · simp only [tryFile, hstem, hfind]
        exact List.Sublist.append_left (List.sublist_cons_self _ _) _
      · simp only [tryFile, hstem, hfind, List.map_append, List.map_cons, List.map_nil]
        rw [List.append_assoc]
        exact List.Sublist.append_left (by simp) _

/-- Under pairwise-distinct stems, the files of one pass's events are
pairwise distinct. -/
theorem passEvents_files_nodup {r1s r2s : List String}
    (hexcl : SufsExcl r1s r2s) :
    ∀ (E : List (String × String × String)),
    (∀ e ∈ E, stemOf r1s (basename e.2.1) = some e.1 ∧
      stemOf r2s (basename e.2.2) = some e.1) →
    (E.map (fun e => e.1)).Nodup → (E.map (fun e => e.2.1)).Nodup →
    (E.flatMap (fun e => [e.2.1, e.2.2])).Nodup := by
  have hne : ∀ (x y : String) (s t : String),
      stemOf r1s (basename x) = some s → stemOf r2s (basename y) = some t →
      x ≠ y := by
    intro x y s t hx hy hc
    subst hc
    have h1 : stemOf r1s (basename x) ≠ none := by rw [hx]; simp
    rw [stemOf_excl hexcl h1] at hy
    cases hy
  intro E
  induction E with
  | nil => intro _ _ _; simp
  | cons e E ih =>
    intro hfacts hstems hf1s
    rw [List.map_cons, List.nodup_cons] at hstems hf1s
    have he := hfacts e (List.mem_cons_self ..)
    simp only [List.flatMap_cons]
    rw [show ([e.2.1, e.2.2] : List String) = [e.2.1] ++ [e.2.2] from rfl]
    rw [List.append_assoc, List.nodup_append]
    refine ⟨List.nodup_singleton _, ?_, ?_⟩
    · rw [List.nodup_append]
      refine ⟨List.nodup_singleton _, ih (fun a ha => hfacts a (List.mem_cons_of_mem _ ha))
        hstems.2 hf1s.2, ?_⟩
      intro x hx hmem
      rw [List.mem_singleton] at hx
      subst hx
      rcases List.mem_flatMap.mp hmem with ⟨e', he', hx'⟩
      have hfe' := hfacts e' (List.mem_cons_of_mem _ he')
      rw [List.mem_cons, List.mem_singleton] at hx'
      rcases hx' with hx1 | hx2
      · exact hne e'.2.1 e.2.2 e'.1 e.1 hfe'.1 he.2 (by rw [hx1])
      · have : e.1 = e'.1 := by
          have := he.2
          rw [hx2, hfe'.2] at this
          exact (Option.some.inj this).symm
        exact hstems.1 (this ▸ List.mem_map_of_mem _ he')
    · intro x hx hmem
      rw [List.mem_singleton] at hx
      subst hx
      rw [List.singleton_append, List.mem_cons] at hmem
      rcases hmem with hx2 | hmem'
      · exact hne e.2.1 e.2.2 e.1 e.1 he.1 he.2 hx2
      · rcases List.mem_flatMap.mp hmem' with ⟨e', he', hx'⟩
        have hfe' := hfacts e' (List.mem_cons_of_mem _ he')
        rw [List.mem_cons, List.mem_singleton] at hx'
        rcases hx' with hx1 | hx2
        · refine hf1s.1 ?_
          rw [hx1]
          exact List.mem_map_of_mem _ he'
        · exact hne e.2.1 e'.2.2 e.1 e'.1 he.1 hfe'.2 hx2

theorem perm_of_nodup_mem_iff {l1 l2 : List String} (h1 : l1.Nodup)
    (h2 : l2.Nodup) (h : ∀ x, x ∈ l1 ↔ x ∈ l2) : l1.Perm l2 := by
  rw [List.perm_iff_count]
  intro a
  by_cases ha : a ∈ l1
  · rw [List.count_eq_one_of_mem h1 ha, List.count_eq_one_of_mem h2 ((h a).mp ha)]
  · rw [List.count_eq_zero_of_not_mem ha,
      List.count_eq_zero_of_not_mem (fun hc => ha ((h a).mpr hc))]

theorem matched_to_events (rule : Rule) (remaining : List String) :
    ∀ (l : List String) (st : PassState) (f : String),
    f ∈ (l.foldl (tryFile rule remaining) st).matched →
    f ∈ st.matched ∨ ∃ ev ∈ (l.foldl (tryFile rule remaining) st).events,
      f = ev.2.1 ∨ f = ev.2.2 := by
  intro l
  induction l with
  | nil => intro st f hf; exact Or.inl hf
  | cons g rest ih =>
    intro st f hf
    rw [List.foldl_cons] at hf ⊢
    rcases ih (tryFile rule remaining st g) f hf with h0 | hex
    · rcases hstem : stemOf rule.r1sufs (basename g) with _ | stem
      · simp only [tryFile, hstem] at h0
        exact Or.inl h0
      · rcases hfind : remaining.find?
            (fun file2 => stemOf rule.r2sufs (basename file2) == some stem) with _ | file2
        · simp only [tryFile, hstem, hfind] at h0
          exact Or.inl h0
        · simp only [tryFile, hstem, hfind] at h0
          have hevmem : (stem, g, file2) ∈
              (rest.foldl (tryFile rule remaining) (tryFile rule remaining st g)).events := by
            rw [events_indep]
            refine List.mem_append_left _ ?_
            simp [tryFile, hstem, hfind]
          rcases List.mem_cons.mp h0 with rfl | h0'
          · exact Or.inr ⟨(stem, g, f), hevmem, Or.inr rfl⟩
          · rcases List.mem_cons.mp h0' with rfl | h0''
            · exact Or.inr ⟨(stem, f, file2), hevmem, Or.inl rfl⟩
            · exact Or.inl h0''
    · exact Or.inr hex

/-- One pass splits the working set, up to permutation, into the files of
its binding events and the surviving remainder. -/
theorem rulePass_accounting {rule : Rule} (hexcl : SufsExcl rule.r1sufs rule.r2sufs)
    (samples : Samples) (remaining : List String) (hnd : remaining.Nodup)
    (hstems : ((passEvents rule remaining).map (fun e => e.1)).Nodup) :
    remaining.Perm
      ((passEvents rule remaining).flatMap (fun e => [e.2.1, e.2.2])
        ++ (rulePass rule samples remaining).2) := by
  have hfacts : ∀ e ∈ passEvents rule remaining,
      e.2.1 ∈ remaining ∧ e.2.2 ∈ remaining ∧
      stemOf rule.r1sufs (basename e.2.1) = some e.1 ∧
      stemOf rule.r2sufs (basename e.2.2) = some e.1 := by
    intro e he
    rcases passEvents_facts rule remaining remaining ⟨[], [], []⟩ e he with h0 | hf
    · simp at h0
    · exact hf
  have hf1nd : ((passEvents rule remaining).map (fun e => e.2.1)).Nodup := by
    refine List.Sublist.nodup ?_ hnd
    have := passEvents_mate1_sublist rule remaining remaining ⟨[], [], []⟩
    simpa using this
  have hfilesnd : ((passEvents rule remaining).flatMap
      (fun e => [e.2.1, e.2.2])).Nodup :=
    passEvents_files_nodup hexcl _ (fun e he => ⟨(hfacts e he).2.2.1, (hfacts e he).2.2.2⟩)
      hstems hf1nd
  have hmcongr := (foldl_matched_events_congr rule remaining remaining
    ⟨samples, [], []⟩ ⟨[], [], []⟩ rfl rfl)
  have hmemiff : ∀ x,
      x ∈ remaining.filter (fun f =>
        ((remaining.foldl (tryFile rule remaining) ⟨samples, [], []⟩).matched.contains f)) ↔
      x ∈ (passEvents rule remaining).flatMap (fun e => [e.2.1, e.2.2]) := by
    intro x
    constructor
    · intro hx
      rcases List.mem_filter.mp hx with ⟨_, hcon⟩
      have hm : x ∈ (remaining.foldl (tryFile rule remaining) ⟨[], [], []⟩).matched := by
        rw [← hmcongr.1]
        exact List.elem_iff.mp hcon
      rcases matched_to_events rule remaining remaining ⟨[], [], []⟩ x hm with h0 | hex
      · simp at h0
      · rcases hex with ⟨ev, hev, hx'⟩
        rw [List.mem_flatMap]
        refine ⟨ev, hev, ?_⟩
        rcases hx' with rfl | rfl
        · exact List.mem_cons_self ..
        · exact List.mem_cons_of_mem _ (List.mem_singleton.mpr rfl)
    · intro hx
      rcases List.mem_flatMap.mp hx with ⟨ev, hev, hx'⟩
      rw [List.mem_cons, List.mem_singleton] at hx'
      have hm0 : x ∈ (remaining.foldl (tryFile rule remaining) ⟨[], [], []⟩).matched := by
        rcases event_files_matched rule remaining remaining ⟨[], [], []⟩ ev hev with h0 | hf
        · simp at h0
        · rcases hx' with rfl | rfl
          · exact hf.1
          · exact hf.2
      have hxrem : x ∈ remaining := by
        rcases hx' with rfl | rfl
        · exact (hfacts ev hev).1
        · exact (hfacts ev hev).2.1
      rw [List.mem_filter]
      refine ⟨hxrem, ?_⟩
      rw [← hmcongr.1] at hm0
      exact List.elem_iff.mpr hm0
  have hperm1 : (remaining.filter (fun f =>
      ((remaining.foldl (tryFile rule remaining) ⟨samples, [], []⟩).matched.contains f))).Perm
      ((passEvents rule remaining).flatMap (fun e => [e.2.1, e.2.2])) :=
    perm_of_nodup_mem_iff (List.Nodup.filter _ hnd) hfilesnd hmemiff
  have hsplit := List.filter_append_perm (fun f =>
    ((remaining.foldl (tryFile rule remaining) ⟨samples, [], []⟩).matched.contains f)) remaining
  refine (hsplit.symm).trans ?_
  exact List.Perm.append hperm1 (List.Perm.refl _)

/-- All four passes split the initial working set into the files of all
binding events plus the final single-end remainder. -/
theorem runBind_accounting :
    ∀ (rules : List Rule), (∀ r ∈ rules, SufsExcl r.r1sufs r.r2sufs) →
    ∀ (remaining : List String), remaining.Nodup →
    ((runBindEvents rules remaining).map (fun e => e.1)).Nodup →
    remaining.Perm
      ((runBindEvents rules remaining).flatMap (fun e => [e.2.1, e.2.2])
        ++ (applyRules rules [] remaining).2) := by
  intro rules
  induction rules with
  | nil => intro _ remaining _ _; simp [runBindEvents, applyRules]
  | cons r0 rest ih =>
    intro hx remaining hnd hnames
    simp only [runBindEvents, List.map_append, List.nodup_append] at hnames
    have h0 : remaining.Perm
        ((passEvents r0 remaining).flatMap (fun e => [e.2.1, e.2.2])
          ++ (rulePass r0 [] remaining).2) :=
      rulePass_accounting (hx r0 (List.mem_cons_self ..)) [] remaining hnd hnames.1
    have hnd' : (rulePass r0 [] remaining).2.Nodup := List.Nodup.filter _ hnd
    have ih' := ih (fun r hr => hx r (List.mem_cons_of_mem _ hr))
      (rulePass r0 [] remaining).2 hnd' hnames.2.1
    refine h0.trans ?_
    refine (List.Perm.append_left _ ih').trans ?_
    simp only [runBindEvents, List.flatMap_append, applyRules]
    rw [← List.append_assoc]
    rw [applyRules_remaining_indep rest (rulePass r0 [] remaining).1
      (rulePass r0 [] remaining).2]

/-! ## Claim C1 -/

/-- Counterexample to C1 as stated: the input set {d1/A_R1.fastq.gz,
d2/A_R1.fastq.gz, A_R2.fastq.gz} (three distinct paths) has the file
d1/A_R1.fastq.gz in no SampleRecord slot of the returned mapping: it is
dropped when the later binding under the same stem A overwrites the earlier
one, so the union of slots does not equal the input set. -/
theorem C1_counterexample :
    "d1/A_R1.fastq.gz" ∈
      (["d1/A_R1.fastq.gz", "d2/A_R1.fastq.gz", "A_R2.fastq.gz"] : List String) ∧
    "d1/A_R1.fastq.gz" ∉ slotFiles
      (parse_fastq_pairs ["d1/A_R1.fastq.gz", "d2/A_R1.fastq.gz", "A_R2.fastq.gz"]) ∧
    slotFiles (parse_fastq_pairs ["d1/A_R1.fastq.gz", "d2/A_R1.fastq.gz", "A_R2.fastq.gz"])
      = ["d2/A_R1.fastq.gz", "A_R2.fastq.gz"] := by decide

/-- C1 amended: when the run's binding events (pair bindings and single-end
bindings) carry pairwise distinct sample names, every input file appears in
exactly one SampleRecord slot — the slots are a permutation of the
deduplicated input set, with no loss and no duplication.  (Without that
hypothesis a file whose binding shares a sample name with a later binding is
dropped, as in the counterexample.) -/
theorem C1_partition_of_distinct_names (files : List String)
    (H : (eventNames files).Nodup) :
    (slotFiles (parse_fastq_pairs files)).Perm files.dedup := by
  rw [parse_eq_foldl_events]
  rcases foldl_applyEv_fresh (runEvents files) []
    (by intro e _ hc; simp [keysOf] at hc) H with ⟨_, hs⟩
  rw [hs]
  show ((runEvents files).flatMap evFiles).Perm files.dedup
  rw [runEvents, List.flatMap_append, List.flatMap_map, List.flatMap_map]
  have hsg : ((remainingAfterRules files).flatMap
      (fun f => evFiles (fastq_ext_strip (basename f), f, none)))
      = remainingAfterRules files := by
    simp [evFiles]
  rw [hsg]
  have hb : ((runBindEvents paired_patterns files.dedup).flatMap
      (fun e => evFiles (e.1, e.2.1, some e.2.2)))
      = (runBindEvents paired_patterns files.dedup).flatMap
        (fun e => [e.2.1, e.2.2]) := by
    simp [evFiles]
  rw [hb]
  have hnames : ((runBindEvents paired_patterns files.dedup).map
      (fun e => e.1)).Nodup := by
    have h := H
    rw [eventNames, runEvents, List.map_append, List.map_map, List.map_map,
      List.nodup_append] at h
    exact h.1
  exact (runBind_accounting paired_patterns mate_excl files.dedup
    (List.nodup_dedup files) hnames).symm

/-- Witness for C1's amended claim: a collision-free input whose slots are
exactly the input set. -/
theorem C1_witness :
    (eventNames ["A_R1.fastq.gz", "A_R2.fastq.gz", "C.fq"]).Nodup ∧
      (slotFiles (parse_fastq_pairs ["A_R1.fastq.gz", "A_R2.fastq.gz", "C.fq"])).Perm
        (["A_R1.fastq.gz", "A_R2.fastq.gz", "C.fq"] : List String).dedup :=
  ⟨by decide, C1_partition_of_distinct_names
    ["A_R1.fastq.gz", "A_R2.fastq.gz", "C.fq"] (by decide)⟩
